import Mathlib

/-!
Shallow embedding of the simplidb SQL front end.

Source files embedded:
  - src/lexer.rs  : character-level tokenizer (nom parser combinators) plus a
    keyword-resolution pass over the token sequence.
  - src/parser.rs : recursive-descent parser from the token sequence to the
    SelectExpression AST.

Modelling conventions for the nom combinators used by the source:
  - a parser over input `I` returning `O` becomes `I -> Option (I × O)`:
    `some (rest, out)` is nom `Ok((rest, out))`, `none` is a nom `Err::Error`
    (every error produced in this code is `Err::Error`, never `Err::Failure`);
  - `alt` is a first-success cascade of `match ... with | some r => some r | none => ...`;
  - `many0 f` is a loop that stops (successfully) on the first `Err::Error` of
    `f`, and - exactly as nom's many0 does - fails if one iteration of `f`
    succeeds without consuming input (the `s1.length == s.length` check below,
    mirroring nom's own input-length comparison);
    the loop is written with an explicit fuel argument so that every
    definition stays structurally recursive and kernel-evaluable; each
    successful production consumes at least one character, so fuel
    `s.length + 1` is always sufficient (proved below);
  - `all_consuming p` runs `p` and then requires the remaining input to be empty;
  - machine strings are `String`/`List Char`; `char::is_alphanumeric`,
    `to_lowercase`, `to_uppercase`, `split(" ")` are modelled by
    `Char.isAlphanum`, `str_to_lower`, `str_to_upper`, `split_words`
    (they agree on the ASCII inputs this grammar is concerned with).
-/

/-- `Token` from src/lexer.rs. -/
inductive Token where
  | Keyword (text : String)
  | Identifier (text : String)
  | Literal (text : String)
  | Comma
  | Parens (children : List Token)


mutual
/-- `DataSource` from src/parser.rs. -/
inductive DataSource where
  | Datastore (name : String)
  | SelectExpr (e : SelectExpression)

/-- `SelectExpression` from src/parser.rs (fields `columns`, `source`). -/
inductive SelectExpression where
  | mk (columns : List String) (source : DataSource)
end

/-- model of Rust `str::to_lowercase` (kernel-evaluable; agrees on ASCII). -/
def str_to_lower (s : String) : String := String.mk (s.data.map Char.toLower)

/-- model of Rust `str::to_uppercase` (kernel-evaluable; agrees on ASCII). -/
def str_to_upper (s : String) : String := String.mk (s.data.map Char.toUpper)

/-- model of Rust `str::split(" ")` (kernel-evaluable): splits at every
space character, keeping empty pieces, exactly as Rust `split` does. -/
def split_words : List Char → List (List Char)
  | [] => [[]]
  | ' ' :: r => [] :: split_words r
  | c :: r =>
    match split_words r with
    | w :: ws => (c :: w) :: ws
    | [] => [[c]]

namespace lexer

/-- `is_literal_character` from src/lexer.rs. -/
def is_literal_character (c : Char) : Bool := c != '"'

/-- the whitespace character set used by `whitespace` in src/lexer.rs. -/
def is_whitespace_char (c : Char) : Bool := c == ' ' || c == '\n' || c == '\t'

/-- the identifier character set used by `identifier` in src/lexer.rs
(`c.is_alphanumeric() || c == '_'`). -/
def is_identifier_char (c : Char) : Bool := c.isAlphanum || c == '_'

/-- the character set excluded by `is_not("*/")` in `block_comment`. -/
def is_not_star_slash (c : Char) : Bool := c != '*' && c != '/'

/-- `literal` from src/lexer.rs: `"` , longest run of non-`"` characters, `"`. -/
def literal (s : List Char) : Option (List Char × Option Token) :=
  match s with
  | '"' :: rest =>
    match rest.dropWhile is_literal_character with
    | '"' :: r => some (r, some (Token.Literal (String.mk (rest.takeWhile is_literal_character))))
    | _ => none
  | _ => none

/-- `whitespace` from src/lexer.rs: `take_while1` over space, newline, tab;
produces no token. -/
def whitespace (s : List Char) : Option (List Char × Option Token) :=
  if (s.takeWhile is_whitespace_char).isEmpty then none
  else some (s.dropWhile is_whitespace_char, none)

/-- `identifier` from src/lexer.rs: `take_while1` over alphanumeric or `_`. -/
def identifier (s : List Char) : Option (List Char × Option Token) :=
  if (s.takeWhile is_identifier_char).isEmpty then none
  else some (s.dropWhile is_identifier_char,
             some (Token.Identifier (String.mk (s.takeWhile is_identifier_char))))

/-- `line_comment` from src/lexer.rs: `--`, then everything up to a newline or
end of input.  `take_while(c != newline)` leaves input that is either empty or
starts with a newline, so the final catch-all arm is unreachable; it models
`alt((tag(newline), eof))` failing. -/
def line_comment (s : List Char) : Option (List Char × Option Token) :=
  match s with
  | '-' :: '-' :: rest =>
    match rest.dropWhile (fun c => c != '\n') with
    | '\n' :: r => some (r, none)
    | [] => some ([], none)
    | _ => none
  | _ => none

/-- `block_comment` from src/lexer.rs:
`delimited(tag("/*"), is_not("*/"), tag("*/"))`.  nom's `is_not` fails when it
would match the empty string, hence the `isEmpty` guard. -/
def block_comment (s : List Char) : Option (List Char × Option Token) :=
  match s with
  | '/' :: '*' :: rest =>
    if (rest.takeWhile is_not_star_slash).isEmpty then none
    else
      match rest.dropWhile is_not_star_slash with
      | '*' :: '/' :: r => some (r, none)
      | _ => none
  | _ => none

/-- `comment` from src/lexer.rs: `alt((line_comment, block_comment))`. -/
def comment (s : List Char) : Option (List Char × Option Token) :=
  match line_comment s with
  | some r => some r
  | none => block_comment s

/-- `take_identifier(name)` from src/lexer.rs (the token-level one used by
`keyword`): matches one `Identifier` token case-insensitively. -/
def take_identifier (name : String) (s : List Token) : Option (List Token) :=
  match s with
  | Token.Identifier curr :: rest =>
    if str_to_lower curr == str_to_lower name then some rest else none
  | _ => none

/-- the `for n in name.split(" ")` loop inside `keyword` from src/lexer.rs. -/
def keyword_go (names : List String) (s : List Token) : Option (List Token) :=
  match names with
  | [] => some s
  | n :: ns =>
    match take_identifier n s with
    | some s1 => keyword_go ns s1
    | none => none

/-- `keyword(name)` from src/lexer.rs: matches the words of `name` as
consecutive identifier tokens and yields `Keyword(name.to_uppercase())`. -/
def keyword (name : String) (s : List Token) : Option (List Token × Token) :=
  match keyword_go ((split_words name.data).map String.mk) s with
  | some rest => some (rest, Token.Keyword (str_to_upper name))
  | none => none

/-- `take_any` from src/lexer.rs: consumes one token, fails only at end of input. -/
def take_any (s : List Token) : Option (List Token × Token) :=
  match s with
  | [] => none
  | t :: rest => some (rest, t)

/-- one iteration of the `alt` inside `resolve_keywords` from src/lexer.rs,
in the source's order: select, from, where, left join, join, catch-all. -/
def resolve_step (s : List Token) : Option (List Token × Token) :=
  match keyword "select" s with
  | some r => some r
  | none =>
  match keyword "from" s with
  | some r => some r
  | none =>
  match keyword "where" s with
  | some r => some r
  | none =>
  match keyword "left join" s with
  | some r => some r
  | none =>
  match keyword "join" s with
  | some r => some r
  | none => take_any s

/-- the `many0` loop of `resolve_keywords`, with explicit fuel (see header). -/
def resolve_loop : Nat → List Token → Option (List Token × List Token)
  | 0, _ => none
  | fuel + 1, s =>
    match resolve_step s with
    | none => some (s, [])
    | some (s1, t) =>
      if s1.length == s.length then none
      else
        match resolve_loop fuel s1 with
        | some (s2, ts) => some (s2, t :: ts)
        | none => none

/-- `resolve_keywords` from src/lexer.rs.  Each successful `resolve_step`
consumes at least one token, so fuel `s.length + 1` never runs out. -/
def resolve_keywords (s : List Token) : Option (List Token × List Token) :=
  resolve_loop (s.length + 1) s

/-- the `r.into_iter().flatten().collect()` step of `tokenize_internal`. -/
def flatten_tokens : List (Option Token) → List Token
  | [] => []
  | none :: rest => flatten_tokens rest
  | some t :: rest => t :: flatten_tokens rest

/-- the non-recursive tail of the `alt` inside `tokenize_internal` from
src/lexer.rs: literal, `const_token(",", Comma)`, whitespace, identifier
(in the source's order). -/
def tokenize_tail_step (s : List Char) : Option (List Char × Option Token) :=
  match literal s with
  | some r => some r
  | none =>
  match s with
  | ',' :: r => some (r, some Token.Comma)
  | _ =>
    match whitespace s with
    | some r => some r
    | none => identifier s

/-- one iteration of the `alt` inside `tokenize_internal` from src/lexer.rs,
parameterised by the recursive call used by the `parens` production
(`parens` = `tag("(")`, a full recursive `tokenize_internal`, `tag(")")`).
The recursive call already performs the keyword-resolution pass of
`tokenize_internal`, including the `all_consuming`/`expect` step: a
non-empty keyword-resolution remainder models the `expect` panic and is
proved unreachable below; a failing inner tokenization makes the `parens`
production fail, and `alt` falls through to the remaining productions. -/
def tokenize_step (recur : List Char → Option (List Char × List (Option Token)))
    (s : List Char) : Option (List Char × Option Token) :=
  match line_comment s with
  | some r => some r
  | none =>
  match block_comment s with
  | some r => some r
  | none =>
  match s with
  | '(' :: rest =>
    (match recur rest with
     | some (s1, ots) =>
       (match resolve_keywords (flatten_tokens ots) with
        | some ([], inner) =>
          (match s1 with
           | ')' :: s2 => some (s2, some (Token.Parens inner))
           | _ => tokenize_tail_step s)
        | _ => none)
     | none => tokenize_tail_step s)
  | _ => tokenize_tail_step s

/-- the `many0` loop of `tokenize_internal`, with explicit fuel (see header). -/
def tokenize_loop : Nat → List Char → Option (List Char × List (Option Token))
  | 0, _ => none
  | fuel + 1, s =>
    match tokenize_step (tokenize_loop fuel) s with
    | none => some (s, [])
    | some (s1, t) =>
      if s1.length == s.length then none
      else
        match tokenize_loop fuel s1 with
        | some (s2, ts) => some (s2, t :: ts)
        | none => none

/-- `tokenize_internal` from src/lexer.rs: the `many0` production loop,
flattening, then `all_consuming(resolve_keywords)` whose failure is the
`expect` panic (modelled as `none`, proved unreachable below). -/
def tokenize_internal (s : List Char) : Option (List Char × List Token) :=
  match tokenize_loop (s.length + 1) s with
  | none => none
  | some (rest, ots) =>
    match resolve_keywords (flatten_tokens ots) with
    | some ([], out) => some (rest, out)
    | _ => none

/-- `tokenize` from src/lexer.rs on `List Char`:
`all_consuming(tokenize_internal)`. -/
def tokenizeL (s : List Char) : Option (List Token) :=
  match tokenize_internal s with
  | some ([], out) => some out
  | _ => none

end lexer

/-- `tokenize` from src/lexer.rs. -/
def tokenize (s : String) : Option (List Token) := lexer.tokenizeL s.data

/-- tokens that are pure parenthesis trees: every token is `Parens` and so
are, recursively, all its children. -/
def all_parens : List Token → Bool
  | [] => true
  | Token.Parens cs :: ts => all_parens cs && all_parens ts
  | _ :: _ => false

/-- renders a token forest of parenthesis trees back to text: `Parens cs`
becomes `(` children `)`; tokens of other shapes contribute nothing.  The
strings consisting only of properly nested parentheses are exactly the
renderings of the `all_parens` forests. -/
def render_tokens : List Token → List Char
  | [] => []
  | Token.Parens cs :: ts => '(' :: (render_tokens cs ++ ')' :: render_tokens ts)
  | _ :: ts => render_tokens ts

/-- nesting depth of a token forest: `Parens` nodes count, one per level. -/
def depth_tokens : List Token → Nat
  | [] => 0
  | Token.Parens cs :: ts => max (depth_tokens cs + 1) (depth_tokens ts)
  | _ :: ts => depth_tokens ts

/-- strings made of parentheses only. -/
def paren_only (s : List Char) : Bool := s.all (fun c => c == '(' || c == ')')

/-- left-to-right matching scan: `unclosed_from n s` is the number of
opening parentheses of `s` (plus `n` carried in) that no later `)` closes;
a `)` with nothing open (counter at zero) is ignored by the saturating
`Nat` subtraction, exactly as in the usual matching of parentheses. -/
def unclosed_from : Nat → List Char → Nat
  | n, [] => n
  | n, '(' :: r => unclosed_from (n + 1) r
  | n, ')' :: r => unclosed_from (n - 1) r
  | n, _ :: r => unclosed_from n r

/-- a string has an unmatched opening parenthesis iff this is positive. -/
def unclosed_opens (s : List Char) : Nat := unclosed_from 0 s

/-- parenthesis-nesting-depth scan: `d` is the current depth, `m` the
maximum depth seen so far. -/
def max_depth_from : List Char → Nat → Nat → Nat
  | [], _, m => m
  | '(' :: r, d, m => max_depth_from r (d + 1) (max m (d + 1))
  | ')' :: r, d, m => max_depth_from r (d - 1) m
  | _ :: r, d, m => max_depth_from r d m

/-- parenthesis nesting depth of a string. -/
def str_depth (s : List Char) : Nat := max_depth_from s 0 0

/-- the canonical (uppercase) keyword phrases of the `resolve_keywords`
table in src/lexer.rs. -/
def keyword_canon : List String := ["SELECT", "FROM", "WHERE", "LEFT JOIN", "JOIN"]

/-- the keyword phrases of the `resolve_keywords` table in src/lexer.rs,
in the source's order. -/
def keyword_table : List String := ["select", "from", "where", "left join", "join"]

/-- shape test: is the token an `Identifier`? -/
def is_identifier_tok : Token → Bool
  | Token.Identifier _ => true
  | _ => false

/-- every `Keyword` token in the forest, including inside `Parens` children,
carries a phrase from the canonical uppercase table. -/
def good_list : List Token → Bool
  | [] => true
  | Token.Keyword k :: ts => keyword_canon.contains k && good_list ts
  | Token.Parens cs :: ts => good_list cs && good_list ts
  | _ :: ts => good_list ts

namespace parser

/-- `SqlParseError` from src/parser.rs. -/
inductive SqlParseError where
  | CustomError (e : String)
  | Eof
  | RemainingTokens (ts : List Token)
  | NomError


/-- `take_identifier` from src/parser.rs: matches an identifier token and
returns its value.  Wrong token kind yields `CustomError "identifier not
matched"`; end of input yields the distinct `Eof` error. -/
def take_identifier (s : List Token) :
    Except SqlParseError (List Token × String) :=
  match s with
  | [] => Except.error SqlParseError.Eof
  | Token.Identifier v :: rest => Except.ok (rest, v)
  | _ :: _ => Except.error (SqlParseError.CustomError "identifier not matched")

/-- `take_keyword(name)` from src/parser.rs: matches the given keyword token
case-insensitively (source returns the matched slice, discarded by its only
caller; here only the remaining tokens are returned).  A present
non-matching token yields `CustomError ("keyword: \"name\" not matched")`
(the source's `format!("keyword: {:?} not matched", &name)`); end of input
yields `Eof`. -/
def take_keyword (name : String) (s : List Token) :
    Except SqlParseError (List Token) :=
  match s with
  | [] => Except.error SqlParseError.Eof
  | Token.Keyword v :: rest =>
    if str_to_lower v == str_to_lower name then Except.ok rest
    else Except.error (SqlParseError.CustomError
      ("keyword: \"" ++ name ++ "\" not matched"))
  | _ :: _ => Except.error (SqlParseError.CustomError
      ("keyword: \"" ++ name ++ "\" not matched"))

/-- `parse_internal` from src/parser.rs: the four sequential expectation
steps `SELECT`, identifier, `FROM`, identifier, assembled with `?`
(modelled by the explicit error-propagating matches). -/
def parse_internal (s : List Token) :
    Except SqlParseError (List Token × SelectExpression) :=
  match take_keyword "SELECT" s with
  | Except.error e => Except.error e
  | Except.ok s =>
  match take_identifier s with
  | Except.error e => Except.error e
  | Except.ok (s, col) =>
  match take_keyword "FROM" s with
  | Except.error e => Except.error e
  | Except.ok s =>
  match take_identifier s with
  | Except.error e => Except.error e
  | Except.ok (s, table) =>
    Except.ok (s, SelectExpression.mk [col] (DataSource.Datastore table))

/-- the error value of `parse` from src/parser.rs.  The source returns
`Result<_, String>`; each constructor records the data the corresponding
error string is formatted from: `LexError` for a stringified tokenize
error, `SqlError e` for a stringified `parse_internal` error, and
`Remaining ts` for the "there are remaining tokens that were not parsed:
{:?}" message, which names the tokens `ts`. -/
inductive ParseError where
  | LexError
  | SqlError (e : SqlParseError)
  | Remaining (ts : List Token)


end parser

/-- `parse` from src/parser.rs: tokenize, run `parse_internal`, then fail if
any tokens remain unconsumed. -/
def parse (s : String) : Except parser.ParseError SelectExpression :=
  match tokenize s with
  | none => Except.error parser.ParseError.LexError
  | some tokens =>
    match parser.parse_internal tokens with
    | Except.error e => Except.error (parser.ParseError.SqlError e)
    | Except.ok (remaining, parsed) =>
      if remaining.isEmpty then Except.ok parsed
      else Except.error (parser.ParseError.Remaining remaining)

/-! ## Lemmas about the keyword-resolution pass -/

theorem take_identifier_some {name : String} {s s1 : List Token}
    (h : lexer.take_identifier name s = some s1) :
    ∃ c, s = Token.Identifier c :: s1 ∧ str_to_lower c = str_to_lower name := by
  match s with
  | [] => simp [lexer.take_identifier] at h
  | Token.Identifier c :: rest =>
    simp only [lexer.take_identifier] at h
    split at h
    · rename_i hc
      exact ⟨c, by simp_all, by simpa using hc⟩
    · exact absurd h (by simp)
  | Token.Keyword _ :: rest => simp [lexer.take_identifier] at h
  | Token.Literal _ :: rest => simp [lexer.take_identifier] at h
  | Token.Comma :: rest => simp [lexer.take_identifier] at h
  | Token.Parens _ :: rest => simp [lexer.take_identifier] at h

theorem keyword_go_some {ns : List String} {s s1 : List Token}
    (h : lexer.keyword_go ns s = some s1) :
    s1 <:+ s ∧ s1.length + ns.length = s.length := by
  induction ns generalizing s with
  | nil => simp [lexer.keyword_go] at h; subst h; simp
  | cons n ns ih =>
    simp only [lexer.keyword_go] at h
    cases htk : lexer.take_identifier n s with
    | none => rw [htk] at h; exact absurd h (by simp)
    | some s2 =>
      rw [htk] at h
      obtain ⟨c, hs, _⟩ := take_identifier_some htk
      obtain ⟨hsuf, hlen⟩ := ih h
      subst hs
      constructor
      · exact hsuf.trans ⟨[Token.Identifier c], rfl⟩
      · simp [List.length_cons] at hlen ⊢; omega

theorem keyword_some {name : String} {s s1 : List Token} {t : Token}
    (h : lexer.keyword name s = some (s1, t)) :
    t = Token.Keyword (str_to_upper name) ∧
      lexer.keyword_go ((split_words name.data).map String.mk) s = some s1 := by
  simp only [lexer.keyword] at h
  cases hg : lexer.keyword_go ((split_words name.data).map String.mk) s with
  | none => rw [hg] at h; exact absurd h (by simp)
  | some rest =>
    rw [hg] at h
    simp only [Option.some.injEq, Prod.mk.injEq] at h
    exact ⟨h.2.symm, congrArg some h.1⟩

theorem keyword_facts {name : String} {s s1 : List Token} {t : Token}
    (h : lexer.keyword name s = some (s1, t)) :
    t = Token.Keyword (str_to_upper name) ∧ s1 <:+ s ∧
      s1.length + ((split_words name.data).map String.mk).length = s.length := by
  obtain ⟨ht, hg⟩ := keyword_some h
  obtain ⟨hsuf, hlen⟩ := keyword_go_some hg
  exact ⟨ht, hsuf, hlen⟩

theorem resolve_step_none {s : List Token} (h : lexer.resolve_step s = none) :
    s = [] := by
  cases s with
  | nil => rfl
  | cons t rest =>
    exfalso
    simp only [lexer.resolve_step] at h
    split at h
    · exact absurd h (by simp)
    · split at h
      · exact absurd h (by simp)
      · split at h
        · exact absurd h (by simp)
        · split at h
          · exact absurd h (by simp)
          · split at h
            · exact absurd h (by simp)
            · simp [lexer.take_any] at h

theorem resolve_step_some {s s1 : List Token} {t : Token}
    (h : lexer.resolve_step s = some (s1, t)) :
    s1.length < s.length ∧ s1 <:+ s ∧
      (t ∈ [Token.Keyword "SELECT", Token.Keyword "FROM", Token.Keyword "WHERE",
            Token.Keyword "LEFT JOIN", Token.Keyword "JOIN"] ∨ s = t :: s1) := by
  simp only [lexer.resolve_step] at h
  split at h
  · rename_i r h1
    have hr : r = (s1, t) := by injection h
    subst hr
    obtain ⟨ht, hsuf, hlen⟩ := keyword_facts h1
    have hw : ((split_words "select".data).map String.mk).length = 1 := rfl
    have hcan : str_to_upper "select" = "SELECT" := rfl
    rw [hw] at hlen
    exact ⟨by omega, hsuf, Or.inl (by rw [ht, hcan]; simp)⟩
  · split at h
    · rename_i r h1
      have hr : r = (s1, t) := by injection h
      subst hr
      obtain ⟨ht, hsuf, hlen⟩ := keyword_facts h1
      have hw : ((split_words "from".data).map String.mk).length = 1 := rfl
      have hcan : str_to_upper "from" = "FROM" := rfl
      rw [hw] at hlen
      exact ⟨by omega, hsuf, Or.inl (by rw [ht, hcan]; simp)⟩
    · split at h
      · rename_i r h1
        have hr : r = (s1, t) := by injection h
        subst hr
        obtain ⟨ht, hsuf, hlen⟩ := keyword_facts h1
        have hw : ((split_words "where".data).map String.mk).length = 1 := rfl
        have hcan : str_to_upper "where" = "WHERE" := rfl
        rw [hw] at hlen
        exact ⟨by omega, hsuf, Or.inl (by rw [ht, hcan]; simp)⟩
      · split at h
        · rename_i r h1
          have hr : r = (s1, t) := by injection h
          subst hr
          obtain ⟨ht, hsuf, hlen⟩ := keyword_facts h1
          have hw : ((split_words "left join".data).map String.mk).length = 2 := rfl
          have hcan : str_to_upper "left join" = "LEFT JOIN" := rfl
          rw [hw] at hlen
          exact ⟨by omega, hsuf, Or.inl (by rw [ht, hcan]; simp)⟩
        · split at h
          · rename_i r h1
            have hr : r = (s1, t) := by injection h
            subst hr
            obtain ⟨ht, hsuf, hlen⟩ := keyword_facts h1
            have hw : ((split_words "join".data).map String.mk).length = 1 := rfl
            have hcan : str_to_upper "join" = "JOIN" := rfl
            rw [hw] at hlen
            exact ⟨by omega, hsuf, Or.inl (by rw [ht, hcan]; simp)⟩
          · cases s with
            | nil => simp [lexer.take_any] at h
            | cons t0 rest =>
              simp only [lexer.take_any, Option.some.injEq, Prod.mk.injEq] at h
              obtain ⟨rfl, rfl⟩ := h
              exact ⟨by simp, ⟨[t0], rfl⟩, Or.inr rfl⟩

theorem resolve_loop_runs :
    ∀ (fuel : Nat) (s : List Token), s.length < fuel →
      ∃ out, lexer.resolve_loop fuel s = some ([], out) := by
  intro fuel
  induction fuel with
  | zero => intro s h; omega
  | succ fuel ih =>
    intro s hlen
    cases hstep : lexer.resolve_step s with
    | none =>
      have := resolve_step_none hstep
      subst this
      exact ⟨[], by simp [lexer.resolve_loop, hstep]⟩
    | some r =>
      obtain ⟨s1, t⟩ := r
      obtain ⟨hlt, -, -⟩ := resolve_step_some hstep
      obtain ⟨out, hout⟩ := ih s1 (by omega)
      refine ⟨t :: out, ?_⟩
      simp only [lexer.resolve_loop, hstep]
      rw [if_neg (by simp; omega), hout]

/-- Claim C8: the keyword-resolution pass consumes every input token
sequence: for every list of tokens, `resolve_keywords` succeeds with no
remaining tokens (the `take_any` catch-all accepts any token), so the
fatal internal-invariant branch (the `expect` after
`all_consuming(resolve_keywords)` in `tokenize_internal`) is unreachable
for any external input. -/
theorem spec_c8 :
    ∀ ts : List Token, ∃ out, lexer.resolve_keywords ts = some ([], out) :=
  fun ts => resolve_loop_runs (ts.length + 1) ts (Nat.lt_succ_self _)

/-! ## Lemmas about the parser -/

theorem parser_take_keyword_ok {name : String} {s rest : List Token}
    (h : parser.take_keyword name s = Except.ok rest) :
    ∃ v, s = Token.Keyword v :: rest ∧ str_to_lower v = str_to_lower name := by
  match s with
  | [] => simp [parser.take_keyword] at h
  | Token.Keyword v :: r =>
    simp only [parser.take_keyword] at h
    split at h
    · rename_i hc
      refine ⟨v, ?_, by simpa using hc⟩
      obtain rfl : r = rest := by injection h
      rfl
    · exact absurd h (by simp)
  | Token.Identifier _ :: r => simp [parser.take_keyword] at h
  | Token.Literal _ :: r => simp [parser.take_keyword] at h
  | Token.Comma :: r => simp [parser.take_keyword] at h
  | Token.Parens _ :: r => simp [parser.take_keyword] at h

theorem parser_take_identifier_ok {s rest : List Token} {v : String}
    (h : parser.take_identifier s = Except.ok (rest, v)) :
    s = Token.Identifier v :: rest := by
  match s with
  | [] => simp [parser.take_identifier] at h
  | Token.Identifier c :: r =>
    simp only [parser.take_identifier, Except.ok.injEq, Prod.mk.injEq] at h
    obtain ⟨rfl, rfl⟩ := h
    rfl
  | Token.Keyword _ :: r => simp [parser.take_identifier] at h
  | Token.Literal _ :: r => simp [parser.take_identifier] at h
  | Token.Comma :: r => simp [parser.take_identifier] at h
  | Token.Parens _ :: r => simp [parser.take_identifier] at h

theorem parse_internal_ok {ts rem : List Token} {e : SelectExpression}
    (h : parser.parse_internal ts = Except.ok (rem, e)) :
    ∃ k1 c k2 t, ts = Token.Keyword k1 :: Token.Identifier c ::
        Token.Keyword k2 :: Token.Identifier t :: rem ∧
      str_to_lower k1 = "select" ∧ str_to_lower k2 = "from" ∧
      e = SelectExpression.mk [c] (DataSource.Datastore t) := by
  simp only [parser.parse_internal] at h
  split at h
  · exact absurd h (by simp)
  · rename_i s1 h1
    split at h
    · exact absurd h (by simp)
    · rename_i p1 s2 c h2
      split at h
      · exact absurd h (by simp)
      · rename_i s3 h3
        split at h
        · exact absurd h (by simp)
        · rename_i p2 s4 t h4
          simp only [Except.ok.injEq, Prod.mk.injEq] at h
          obtain ⟨rfl, rfl⟩ := h
          obtain ⟨k1, rfl, hk1⟩ := parser_take_keyword_ok h1
          have hc := parser_take_identifier_ok h2
          subst hc
          obtain ⟨k2, rfl, hk2⟩ := parser_take_keyword_ok h3
          have ht := parser_take_identifier_ok h4
          subst ht
          have l1 : str_to_lower "SELECT" = "select" := rfl
          have l2 : str_to_lower "FROM" = "from" := rfl
          exact ⟨k1, c, k2, t, rfl, by rw [hk1, l1], by rw [hk2, l2], rfl⟩

/-- Claim C1: every input string accepted by `parse` yields exactly
`SelectExpression { columns := [c], source := Datastore t }` where `c` is the
identifier token following the SELECT keyword and `t` the identifier token
following the FROM keyword, both captured verbatim; in particular
`parse "SELECT x FROM t"` returns that shape for `x` and `t`, and `parse`
never returns a multi-column list or a nested `SelectExpr` source. -/
theorem spec_c1 :
    (∀ (s : String) (e : SelectExpression), parse s = Except.ok e →
      ∃ k1 c k2 t, tokenize s =
          some [Token.Keyword k1, Token.Identifier c, Token.Keyword k2,
                Token.Identifier t] ∧
        str_to_lower k1 = "select" ∧ str_to_lower k2 = "from" ∧
        e = SelectExpression.mk [c] (DataSource.Datastore t)) ∧
    parse "SELECT x FROM t" =
      Except.ok (SelectExpression.mk ["x"] (DataSource.Datastore "t")) := by
  constructor
  · intro s e h
    simp only [parse] at h
    split at h
    · exact absurd h (by simp)
    · rename_i tokens htok
      split at h
      · exact absurd h (by simp)
      · rename_i rem parsed hpi
        split at h
        · rename_i hemp
          obtain rfl : parsed = e := by injection h
          obtain ⟨k1, c, k2, t, hts, hk1, hk2, he⟩ := parse_internal_ok hpi
          have hrem : rem = [] := by simpa [List.isEmpty_iff] using hemp
          subst hrem
          subst hts
          exact ⟨k1, c, k2, t, htok, hk1, hk2, he⟩
        · exact absurd h (by simp)
  · rfl

theorem spec_c1_witness :
    ∃ k1 c k2 t, tokenize "SELECT x FROM t" =
        some [Token.Keyword k1, Token.Identifier c, Token.Keyword k2,
              Token.Identifier t] ∧
      str_to_lower k1 = "select" ∧ str_to_lower k2 = "from" ∧
      SelectExpression.mk ["x"] (DataSource.Datastore "t") =
        SelectExpression.mk [c] (DataSource.Datastore t) :=
  spec_c1.1 "SELECT x FROM t" (SelectExpression.mk ["x"] (DataSource.Datastore "t")) rfl

/-- Claim C5: if the four-step grammar production matches a prefix of the
token sequence but tokens remain unconsumed, `parse` returns the error that
names the remaining tokens; in particular `parse "SELECT x FROM t EXTRA"`
fails with the trailing-tokens error naming the leftover identifier token. -/
theorem spec_c5 :
    (∀ (s : String) (ts rem : List Token) (e : SelectExpression),
        tokenize s = some ts → parser.parse_internal ts = Except.ok (rem, e) →
        rem ≠ [] →
        parse s = Except.error (parser.ParseError.Remaining rem)) ∧
    parse "SELECT x FROM t EXTRA" =
      Except.error (parser.ParseError.Remaining [Token.Identifier "EXTRA"]) := by
  constructor
  · intro s ts rem e htok hpi hne
    simp only [parse, htok, hpi]
    rw [if_neg (by simpa [List.isEmpty_iff] using hne)]
  · rfl

theorem spec_c5_witness :
    parse "SELECT x FROM t EXTRA" =
      Except.error (parser.ParseError.Remaining [Token.Identifier "EXTRA"]) :=
  spec_c5.1 "SELECT x FROM t EXTRA"
    [Token.Keyword "SELECT", Token.Identifier "x", Token.Keyword "FROM",
     Token.Identifier "t", Token.Identifier "EXTRA"]
    [Token.Identifier "EXTRA"]
    (SelectExpression.mk ["x"] (DataSource.Datastore "t"))
    rfl rfl (by simp)

/-- Claim C6: each of the parser's four expectation-steps fails distinctly:
a present token of the wrong kind yields an error identifying what was
expected (in particular `parse "SELECT FROM t"` fails with the
identifier-not-matched error because a `Keyword` token appears where the
column identifier is expected), while end of the token stream yields the
distinct unexpected-end (`Eof`) error. -/
theorem spec_c6 :
    parse "SELECT FROM t" =
      Except.error (parser.ParseError.SqlError
        (parser.SqlParseError.CustomError "identifier not matched")) ∧
    (∀ (t : Token) (rest : List Token), is_identifier_tok t = false →
        parser.take_identifier (t :: rest) =
          Except.error (parser.SqlParseError.CustomError "identifier not matched")) ∧
    parser.take_identifier [] = Except.error parser.SqlParseError.Eof ∧
    (∀ (name : String) (t : Token) (rest : List Token),
        (∀ v, t = Token.Keyword v → str_to_lower v ≠ str_to_lower name) →
        parser.take_keyword name (t :: rest) =
          Except.error (parser.SqlParseError.CustomError
            ("keyword: \"" ++ name ++ "\" not matched"))) ∧
    (∀ name : String,
        parser.take_keyword name [] = Except.error parser.SqlParseError.Eof) ∧
    parser.SqlParseError.Eof ≠
      parser.SqlParseError.CustomError "identifier not matched" := by
  refine ⟨rfl, ?_, rfl, ?_, fun name => rfl, fun h => parser.SqlParseError.noConfusion h⟩
  · intro t rest hni
    cases t with
    | Identifier v => simp [is_identifier_tok] at hni
    | Keyword v => rfl
    | Literal v => rfl
    | Comma => rfl
    | Parens cs => rfl
  · intro name t rest hv
    cases t with
    | Keyword v =>
      simp only [parser.take_keyword]
      rw [if_neg]
      simp only [beq_iff_eq]
      exact hv v rfl
    | Identifier v => rfl
    | Literal v => rfl
    | Comma => rfl
    | Parens cs => rfl

theorem spec_c6_witness :
    parser.take_identifier [Token.Keyword "FROM"] =
      Except.error (parser.SqlParseError.CustomError "identifier not matched") ∧
    parser.take_keyword "SELECT" [Token.Identifier "x"] =
      Except.error (parser.SqlParseError.CustomError
        ("keyword: \"" ++ "SELECT" ++ "\" not matched")) :=
  ⟨spec_c6.2.1 (Token.Keyword "FROM") [] rfl,
   spec_c6.2.2.2.1 "SELECT" (Token.Identifier "x") []
     (fun _v hv => Token.noConfusion hv)⟩

/-- Claim C2: multi-word keyword phrases are matched with longest-first
precedence over shared-prefix shorter phrases: `tokenize
"t1 LEFT JOIN t2 JOIN t3"` yields one `Keyword "LEFT JOIN"` token for the
two-word phrase and a distinct `Keyword "JOIN"` for the later one-word
phrase, never `Keyword "JOIN"` preceded by a stray `Identifier "LEFT"`. -/
theorem spec_c2 :
    tokenize "t1 LEFT JOIN t2 JOIN t3" =
      some [Token.Identifier "t1", Token.Keyword "LEFT JOIN",
            Token.Identifier "t2", Token.Keyword "JOIN",
            Token.Identifier "t3"] := rfl

/-- Claim C9: re-tokenizing the rendered uppercase phrase of any keyword of
the resolution table as raw input and running keyword resolution reproduces
that same single `Keyword` token: `tokenize` is a left inverse of `Keyword`
rendering for every phrase of the fixed table. -/
theorem spec_c9 :
    ∀ name ∈ keyword_table,
      tokenize (str_to_upper name) = some [Token.Keyword (str_to_upper name)] := by
  intro name h
  fin_cases h <;> rfl

theorem spec_c9_witness :
    tokenize (str_to_upper "left join") =
      some [Token.Keyword (str_to_upper "left join")] :=
  spec_c9 "left join" (by simp [keyword_table])

/-! ## Lemmas about takeWhile / dropWhile used for the comment analysis -/

theorem takeWhile_append_stop {α : Type} (p : α → Bool) {l : List α}
    (c0 : α) (r : List α) (hl : ∀ c ∈ l, p c = true) (hc : p c0 = false) :
    (l ++ c0 :: r).takeWhile p = l := by
  induction l with
  | nil => simp [List.takeWhile_cons, hc]
  | cons a l ih =>
    have ha : p a = true := hl a (by simp)
    simp [List.takeWhile_cons, ha]
    exact ih (fun c hcm => hl c (by simp [hcm]))

theorem dropWhile_append_stop {α : Type} (p : α → Bool) {l : List α}
    (c0 : α) (r : List α) (hl : ∀ c ∈ l, p c = true) (hc : p c0 = false) :
    (l ++ c0 :: r).dropWhile p = c0 :: r := by
  induction l with
  | nil => simp [List.dropWhile_cons, hc]
  | cons a l ih =>
    have ha : p a = true := hl a (by simp)
    simp [List.dropWhile_cons, ha]
    exact ih (fun c hcm => hl c (by simp [hcm]))

/-- Claim C4, amended: for every input of the form `/*` body `*/` rest, the
block-comment production succeeds, consuming exactly through the closing
`*/` and producing no token, exactly when the body is non-empty and contains
neither `*` nor `/`. -/
theorem spec_c4 :
    ∀ (body rest : List Char),
      (lexer.block_comment ('/' :: '*' :: (body ++ '*' :: '/' :: rest)) =
          some (rest, none)
        ↔ body ≠ [] ∧ ∀ c ∈ body, c ≠ '*' ∧ c ≠ '/') := by
  intro body rest
  constructor
  · intro h
    simp only [lexer.block_comment] at h
    split at h
    · exact absurd h (by simp)
    · rename_i hemp
      split at h
      · rename_i r hdrop
        obtain rfl : r = rest := by
          simp only [Option.some.injEq, Prod.mk.injEq] at h
          exact h.1
        have hsplit := List.takeWhile_append_dropWhile
          lexer.is_not_star_slash (body ++ '*' :: '/' :: r)
        rw [hdrop] at hsplit
        have hbody : (body ++ '*' :: '/' :: r).takeWhile lexer.is_not_star_slash
            = body := List.append_cancel_right hsplit
        constructor
        · intro hb
          subst hb
          rw [hbody] at hemp
          simp at hemp
        · intro c hc
          have hmem : c ∈ (body ++ '*' :: '/' :: r).takeWhile
              lexer.is_not_star_slash := by rw [hbody]; exact hc
          have hp := List.mem_takeWhile_imp hmem
          simpa [lexer.is_not_star_slash, bne_iff_ne] using hp
      · exact absurd h (by simp)
  · intro hrhs
    obtain ⟨hne, hnotin⟩ := hrhs
    have hall : ∀ c ∈ body, lexer.is_not_star_slash c = true := by
      intro c hc
      have := hnotin c hc
      simp [lexer.is_not_star_slash, bne_iff_ne]
      exact this
    have ht := takeWhile_append_stop lexer.is_not_star_slash
      '*' ('/' :: rest) hall rfl
    have hd := dropWhile_append_stop lexer.is_not_star_slash
      '*' ('/' :: rest) hall rfl
    simp only [lexer.block_comment, ht, hd]
    rw [if_neg (by simpa [List.isEmpty_iff] using hne)]

theorem spec_c4_witness :
    lexer.block_comment ('/' :: '*' :: (['a'] ++ '*' :: '/' :: [])) =
      some ([], none) :=
  (spec_c4 ['a'] []).mpr ⟨by simp, by simp⟩

/-- Claim C4, counterexample to the claim as stated: for the input `/**/`
the body between the opener and the closing delimiter is empty, so it
contains neither `*` nor `/`, yet the block-comment production fails
(nom's `is_not` refuses an empty match) and `tokenize "/**/"` errors
instead of consuming the segment as a token-less comment. -/
theorem spec_c4_counterexample :
    (∀ c ∈ ([] : List Char), c ≠ '*' ∧ c ≠ '/') ∧
    lexer.block_comment ('/' :: '*' :: (([] : List Char) ++ '*' :: '/' :: [])) =
      none ∧
    tokenize "/**/" = none :=
  ⟨by simp, rfl, rfl⟩

/-! ## Lemmas about the character-level productions -/

theorem literal_some {s s1 : List Char} {ot : Option Token}
    (h : lexer.literal s = some (s1, ot)) :
    s1.length < s.length ∧ ∃ v, ot = some (Token.Literal v) := by
  simp only [lexer.literal] at h
  split at h
  · rename_i rest
    split at h
    · rename_i r hdrop
      simp only [Option.some.injEq, Prod.mk.injEq] at h
      obtain ⟨rfl, rfl⟩ := h
      refine ⟨?_, _, rfl⟩
      have hsub : ('"' :: r).length ≤ rest.length := by
        rw [← hdrop]; exact (List.dropWhile_sublist _).length_le
      simp at hsub ⊢
      omega
    · exact absurd h (by simp)
  · exact absurd h (by simp)

theorem whitespace_some {s s1 : List Char} {ot : Option Token}
    (h : lexer.whitespace s = some (s1, ot)) :
    s1.length < s.length ∧ ot = none := by
  simp only [lexer.whitespace] at h
  split at h
  · exact absurd h (by simp)
  · rename_i hne
    simp only [Option.some.injEq, Prod.mk.injEq] at h
    obtain ⟨rfl, rfl⟩ := h
    refine ⟨?_, rfl⟩
    have hsplit := List.takeWhile_append_dropWhile lexer.is_whitespace_char s
    have hlen := congrArg List.length hsplit
    simp only [List.length_append] at hlen
    have htw : s.takeWhile lexer.is_whitespace_char ≠ [] := by
      simpa [List.isEmpty_iff] using hne
    have hpos : 0 < (s.takeWhile lexer.is_whitespace_char).length :=
      List.length_pos.mpr htw
    omega

theorem identifier_some {s s1 : List Char} {ot : Option Token}
    (h : lexer.identifier s = some (s1, ot)) :
    s1.length < s.length ∧ ∃ v, ot = some (Token.Identifier v) := by
  simp only [lexer.identifier] at h
  split at h
  · exact absurd h (by simp)
  · rename_i hne
    simp only [Option.some.injEq, Prod.mk.injEq] at h
    obtain ⟨rfl, rfl⟩ := h
    refine ⟨?_, _, rfl⟩
    have hsplit := List.takeWhile_append_dropWhile lexer.is_identifier_char s
    have hlen := congrArg List.length hsplit
    simp only [List.length_append] at hlen
    have htw : s.takeWhile lexer.is_identifier_char ≠ [] := by
      simpa [List.isEmpty_iff] using hne
    have hpos : 0 < (s.takeWhile lexer.is_identifier_char).length :=
      List.length_pos.mpr htw
    omega

theorem line_comment_some {s s1 : List Char} {ot : Option Token}
    (h : lexer.line_comment s = some (s1, ot)) :
    s1.length < s.length ∧ ot = none := by
  simp only [lexer.line_comment] at h
  split at h
  · rename_i rest
    split at h
    · rename_i r hdrop
      simp only [Option.some.injEq, Prod.mk.injEq] at h
      obtain ⟨rfl, rfl⟩ := h
      refine ⟨?_, rfl⟩
      have hsub : ('\n' :: r).length ≤ rest.length := by
        rw [← hdrop]; exact (List.dropWhile_sublist _).length_le
      simp at hsub ⊢
      omega
    · simp only [Option.some.injEq, Prod.mk.injEq] at h
      obtain ⟨rfl, rfl⟩ := h
      refine ⟨by simp, rfl⟩
    · exact absurd h (by simp)
  · exact absurd h (by simp)

theorem block_comment_some {s s1 : List Char} {ot : Option Token}
    (h : lexer.block_comment s = some (s1, ot)) :
    s1.length < s.length ∧ ot = none := by
  simp only [lexer.block_comment] at h
  split at h
  · rename_i rest
    split at h
    · exact absurd h (by simp)
    · split at h
      · rename_i r hdrop
        simp only [Option.some.injEq, Prod.mk.injEq] at h
        obtain ⟨rfl, rfl⟩ := h
        refine ⟨?_, rfl⟩
        have hsub : ('*' :: '/' :: r).length ≤ rest.length := by
          rw [← hdrop]; exact (List.dropWhile_sublist _).length_le
        simp at hsub ⊢
        omega
      · exact absurd h (by simp)
  · exact absurd h (by simp)

theorem tokenize_tail_step_some {s s1 : List Char} {ot : Option Token}
    (h : lexer.tokenize_tail_step s = some (s1, ot)) :
    s1.length < s.length ∧
      (ot = none ∨ (∃ v, ot = some (Token.Identifier v)) ∨
        (∃ v, ot = some (Token.Literal v)) ∨ ot = some Token.Comma) := by
  simp only [lexer.tokenize_tail_step] at h
  split at h
  · rename_i r hlit
    obtain rfl : r = (s1, ot) := by injection h
    obtain ⟨hlen, v, hv⟩ := literal_some hlit
    exact ⟨hlen, Or.inr (Or.inr (Or.inl ⟨v, hv⟩))⟩
  · split at h
    · rename_i r
      simp only [Option.some.injEq, Prod.mk.injEq] at h
      obtain ⟨rfl, rfl⟩ := h
      exact ⟨by simp, Or.inr (Or.inr (Or.inr rfl))⟩
    · split at h
      · rename_i r hws
        obtain rfl : r = (s1, ot) := by injection h
        obtain ⟨hlen, hnone⟩ := whitespace_some hws
        exact ⟨hlen, Or.inl hnone⟩
      · obtain ⟨hlen, v, hv⟩ := identifier_some h
        exact ⟨hlen, Or.inr (Or.inl ⟨v, hv⟩)⟩

/-! ## Stopper facts and the tokenizer step and loop -/

theorem line_comment_open (y : List Char) : lexer.line_comment ('(' :: y) = none := rfl

theorem block_comment_open (y : List Char) : lexer.block_comment ('(' :: y) = none := rfl

theorem tokenize_tail_step_open (y : List Char) :
    lexer.tokenize_tail_step ('(' :: y) = none := rfl

theorem tokenize_step_nil (recur : List Char → Option (List Char × List (Option Token))) :
    lexer.tokenize_step recur [] = none := rfl

theorem tokenize_step_close (recur : List Char → Option (List Char × List (Option Token)))
    (y : List Char) : lexer.tokenize_step recur (')' :: y) = none := rfl

theorem tokenize_step_some {recur : List Char → Option (List Char × List (Option Token))}
    {s s1 : List Char} {ot : Option Token}
    (hrec : ∀ r r1 os, recur r = some (r1, os) → r1.length ≤ r.length)
    (h : lexer.tokenize_step recur s = some (s1, ot)) :
    s1.length < s.length := by
  simp only [lexer.tokenize_step] at h
  split at h
  · rename_i r hlc
    obtain rfl : r = (s1, ot) := by injection h
    exact (line_comment_some hlc).1
  · split at h
    · rename_i r hbc
      obtain rfl : r = (s1, ot) := by injection h
      exact (block_comment_some hbc).1
    · split at h
      · rename_i rest hlc2 hbc2
        split at h
        · rename_i r1 os hrecur
          split at h
          · rename_i inner hres
            split at h
            · rename_i s2
              simp only [Option.some.injEq, Prod.mk.injEq] at h
              obtain ⟨rfl, rfl⟩ := h
              have h1 := hrec rest (')' :: s2) os hrecur
              simp at h1 ⊢
              omega
            · exact (tokenize_tail_step_some h).1
          · exact absurd h (by simp)
        · exact (tokenize_tail_step_some h).1
      · exact (tokenize_tail_step_some h).1

theorem tokenize_loop_length :
    ∀ (fuel : Nat) {s r : List Char} {ots : List (Option Token)},
      lexer.tokenize_loop fuel s = some (r, ots) → r.length ≤ s.length := by
  intro fuel
  induction fuel with
  | zero => intro s r ots h; simp [lexer.tokenize_loop] at h
  | succ fuel ih =>
    intro s r ots h
    simp only [lexer.tokenize_loop] at h
    split at h
    · simp only [Option.some.injEq, Prod.mk.injEq] at h
      obtain ⟨rfl, rfl⟩ := h
      exact Nat.le_refl _
    · rename_i s1 t hstep
      split at h
      · exact absurd h (by simp)
      · split at h
        · rename_i s2 ts hloop
          simp only [Option.some.injEq, Prod.mk.injEq] at h
          obtain ⟨rfl, rfl⟩ := h
          have h1 := ih hloop
          have h2 := tokenize_step_some (fun a b c hc => ih hc) hstep
          omega
        · exact absurd h (by simp)

/-! ## The keyword-resolution pass is the identity on identifier-free input -/

theorem resolve_step_no_ident {t : Token} {rest : List Token}
    (hni : is_identifier_tok t = false) :
    lexer.resolve_step (t :: rest) = some (rest, t) := by
  cases t with
  | Identifier v => simp [is_identifier_tok] at hni
  | Keyword v => rfl
  | Literal v => rfl
  | Comma => rfl
  | Parens cs => rfl

theorem resolve_loop_no_ident :
    ∀ (fuel : Nat) (ts : List Token), ts.length < fuel →
      (∀ t ∈ ts, is_identifier_tok t = false) →
      lexer.resolve_loop fuel ts = some ([], ts) := by
  intro fuel
  induction fuel with
  | zero => intro ts h; omega
  | succ fuel ih =>
    intro ts hlen hni
    cases ts with
    | nil => rfl
    | cons t rest =>
      have hstep := @resolve_step_no_ident t rest (hni t (by simp))
      simp only [lexer.resolve_loop, hstep]
      rw [if_neg (by simp)]
      rw [ih rest (by simp at hlen ⊢; omega) (fun x hx => hni x (by simp [hx]))]

theorem resolve_keywords_no_ident {ts : List Token}
    (hni : ∀ t ∈ ts, is_identifier_tok t = false) :
    lexer.resolve_keywords ts = some ([], ts) :=
  resolve_loop_no_ident (ts.length + 1) ts (Nat.lt_succ_self _) hni

theorem all_parens_cons {t : Token} {ts : List Token}
    (h : all_parens (t :: ts) = true) :
    ∃ cs, t = Token.Parens cs ∧ all_parens cs = true ∧ all_parens ts = true := by
  cases t with
  | Parens cs =>
    simp only [all_parens, Bool.and_eq_true] at h
    exact ⟨cs, rfl, h.1, h.2⟩
  | Keyword v => simp [all_parens] at h
  | Identifier v => simp [all_parens] at h
  | Literal v => simp [all_parens] at h
  | Comma => simp [all_parens] at h

theorem all_parens_no_ident {ts : List Token} (h : all_parens ts = true) :
    ∀ t ∈ ts, is_identifier_tok t = false := by
  induction ts with
  | nil => intro t ht; simp at ht
  | cons t0 rest ih =>
    intro t ht
    obtain ⟨cs, rfl, -, htl⟩ := all_parens_cons h
    rcases List.mem_cons.mp ht with rfl | hm
    · rfl
    · exact ih htl t hm

theorem flatten_tokens_map_some (ts : List Token) :
    lexer.flatten_tokens (ts.map some) = ts := by
  induction ts with
  | nil => rfl
  | cons t rest ih => simp [lexer.flatten_tokens, ih]

/-! ## Tokenizing a properly nested parenthesis string -/

theorem tokenize_loop_render :
    ∀ (ts : List Token), ∀ (rest : List Char) (fuel : Nat),
      all_parens ts = true →
      (rest = [] ∨ ∃ r2, rest = ')' :: r2) →
      (render_tokens ts ++ rest).length < fuel →
      lexer.tokenize_loop fuel (render_tokens ts ++ rest) =
        some (rest, ts.map some) := by
  intro ts
  induction ts using render_tokens.induct with
  | case1 =>
    intro rest fuel hap hrest hfuel
    simp only [render_tokens, List.nil_append] at hfuel ⊢
    cases fuel with
    | zero => omega
    | succ f =>
      rcases hrest with rfl | ⟨r2, rfl⟩
      · simp [lexer.tokenize_loop, tokenize_step_nil]
      · simp [lexer.tokenize_loop, tokenize_step_close]
  | case2 cs ts ihcs ihts =>
    intro rest fuel hap hrest hfuel
    have hap' : all_parens cs = true ∧ all_parens ts = true := by
      simpa [all_parens, Bool.and_eq_true] using hap
    simp only [render_tokens] at hfuel ⊢
    cases fuel with
    | zero => simp at hfuel
    | succ f =>
      have hassoc : ('(' :: (render_tokens cs ++ ')' :: render_tokens ts)) ++ rest
          = '(' :: (render_tokens cs ++ ')' :: (render_tokens ts ++ rest)) := by
        simp
      have hinner : lexer.tokenize_loop f
          (render_tokens cs ++ ')' :: (render_tokens ts ++ rest)) =
          some (')' :: (render_tokens ts ++ rest), cs.map some) := by
        refine ihcs _ f hap'.1 (Or.inr ⟨_, rfl⟩) ?_
        simp only [List.length_append, List.length_cons] at hfuel ⊢
        omega
      have hres : lexer.resolve_keywords (lexer.flatten_tokens (cs.map some)) =
          some ([], cs) := by
        rw [flatten_tokens_map_some]
        exact resolve_keywords_no_ident (all_parens_no_ident hap'.1)
      have hstep : lexer.tokenize_step (lexer.tokenize_loop f)
          ('(' :: (render_tokens cs ++ ')' :: (render_tokens ts ++ rest))) =
          some (render_tokens ts ++ rest, some (Token.Parens cs)) := by
        simp only [lexer.tokenize_step, line_comment_open, block_comment_open,
          hinner, hres]
      have houter : lexer.tokenize_loop f (render_tokens ts ++ rest) =
          some (rest, ts.map some) := by
        refine ihts rest f hap'.2 hrest ?_
        simp only [List.length_append, List.length_cons] at hfuel ⊢
        omega
      rw [hassoc]
      simp only [lexer.tokenize_loop, hstep]
      rw [if_neg (by simp [List.length_append]; omega)]
      rw [houter]
      simp
  | case3 head ts hnp ihts =>
    intro rest fuel hap hrest hfuel
    exfalso
    cases head with
    | Parens cs => exact hnp cs rfl
    | Keyword v => simp [all_parens] at hap
    | Identifier v => simp [all_parens] at hap
    | Literal v => simp [all_parens] at hap
    | Comma => simp [all_parens] at hap

theorem tokenizeL_render {ts : List Token} (h : all_parens ts = true) :
    lexer.tokenizeL (render_tokens ts) = some ts := by
  have hloop := tokenize_loop_render ts [] ((render_tokens ts).length + 1) h
    (Or.inl rfl) (by simp)
  rw [List.append_nil] at hloop
  have hres : lexer.resolve_keywords (lexer.flatten_tokens (ts.map some)) =
      some ([], ts) := by
    rw [flatten_tokens_map_some]
    exact resolve_keywords_no_ident (all_parens_no_ident h)
  simp only [lexer.tokenizeL, lexer.tokenize_internal, hloop, hres]

theorem paren_only_cons {c : Char} {s : List Char}
    (h : paren_only (c :: s) = true) :
    (c = '(' ∨ c = ')') ∧ paren_only s = true := by
  simpa [paren_only, List.all_cons, Bool.or_eq_true, beq_iff_eq] using h

theorem paren_only_append_right {a b : List Char}
    (h : paren_only (a ++ b) = true) : paren_only b = true := by
  simp only [paren_only, List.all_append, Bool.and_eq_true] at h
  exact h.2

theorem tokenize_internal_some {s rest : List Char} {out : List Token}
    (h : lexer.tokenize_internal s = some (rest, out)) :
    ∃ ots, lexer.tokenize_loop (s.length + 1) s = some (rest, ots) ∧
      lexer.resolve_keywords (lexer.flatten_tokens ots) = some ([], out) := by
  simp only [lexer.tokenize_internal] at h
  split at h
  · exact absurd h (by simp)
  · rename_i rest0 ots hloop
    split at h
    · rename_i out0 hres
      simp only [Option.some.injEq, Prod.mk.injEq] at h
      obtain ⟨rfl, rfl⟩ := h
      exact ⟨ots, hloop, hres⟩
    · exact absurd h (by simp)

theorem tokenizeL_some {s : List Char} {out : List Token}
    (h : lexer.tokenizeL s = some out) :
    lexer.tokenize_internal s = some ([], out) := by
  simp only [lexer.tokenizeL] at h
  split at h
  · rename_i out0 hint
    obtain rfl : out0 = out := by injection h
    exact hint
  · exact absurd h (by simp)

theorem tokenize_loop_sound :
    ∀ (fuel : Nat) (s rest : List Char) (ots : List (Option Token)),
      paren_only s = true →
      lexer.tokenize_loop fuel s = some (rest, ots) →
      ∃ ts, all_parens ts = true ∧ s = render_tokens ts ++ rest ∧
        ots = ts.map some := by
  intro fuel
  induction fuel with
  | zero => intro s rest ots hpo h; simp [lexer.tokenize_loop] at h
  | succ fuel ih =>
    intro s rest ots hpo h
    simp only [lexer.tokenize_loop] at h
    cases s with
    | nil =>
      rw [tokenize_step_nil] at h
      simp only [Option.some.injEq, Prod.mk.injEq] at h
      obtain ⟨rfl, rfl⟩ := h
      exact ⟨[], by simp [all_parens], by simp [render_tokens], rfl⟩
    | cons c s0 =>
      obtain ⟨hc, hpo0⟩ := paren_only_cons hpo
      rcases hc with rfl | rfl
      · cases hrec : lexer.tokenize_loop fuel s0 with
        | none =>
          have hstep : lexer.tokenize_step (lexer.tokenize_loop fuel)
              ('(' :: s0) = none := by
            simp only [lexer.tokenize_step, line_comment_open, block_comment_open,
              hrec, tokenize_tail_step_open]
          rw [hstep] at h
          simp only [Option.some.injEq, Prod.mk.injEq] at h
          obtain ⟨rfl, rfl⟩ := h
          exact ⟨[], by simp [all_parens], by simp [render_tokens], rfl⟩
        | some p =>
          obtain ⟨s1, ots1⟩ := p
          obtain ⟨ts1, hap1, hs0, hots1⟩ := ih s0 s1 ots1 hpo0 hrec
          have hres : lexer.resolve_keywords (lexer.flatten_tokens ots1) =
              some ([], ts1) := by
            rw [hots1, flatten_tokens_map_some]
            exact resolve_keywords_no_ident (all_parens_no_ident hap1)
          have hpo1 : paren_only s1 = true := by
            rw [hs0] at hpo0
            exact paren_only_append_right hpo0
          cases s1 with
          | nil =>
            have hstep : lexer.tokenize_step (lexer.tokenize_loop fuel)
                ('(' :: s0) = none := by
              simp only [lexer.tokenize_step, line_comment_open, block_comment_open,
                hrec, hres, tokenize_tail_step_open]
            rw [hstep] at h
            simp only [Option.some.injEq, Prod.mk.injEq] at h
            obtain ⟨rfl, rfl⟩ := h
            exact ⟨[], by simp [all_parens], by simp [render_tokens], rfl⟩
          | cons c1 s2 =>
            obtain ⟨hc1, hpo2⟩ := paren_only_cons hpo1
            rcases hc1 with rfl | rfl
            · have hstep : lexer.tokenize_step (lexer.tokenize_loop fuel)
                  ('(' :: s0) = none := by
                simp only [lexer.tokenize_step, line_comment_open, block_comment_open,
                  hrec, hres, tokenize_tail_step_open]
                rfl
              rw [hstep] at h
              simp only [Option.some.injEq, Prod.mk.injEq] at h
              obtain ⟨rfl, rfl⟩ := h
              exact ⟨[], by simp [all_parens], by simp [render_tokens], rfl⟩
            · have hstep : lexer.tokenize_step (lexer.tokenize_loop fuel)
                  ('(' :: s0) = some (s2, some (Token.Parens ts1)) := by
                simp only [lexer.tokenize_step, line_comment_open, block_comment_open,
                  hrec, hres]
              have hlen : s2.length < ('(' :: s0).length := by
                rw [hs0]
                simp [List.length_append]
                omega
              have hne : (s2.length == ('(' :: s0).length) = false := by
                simp only [beq_eq_false_iff_ne]
                omega
              cases hloop2 : lexer.tokenize_loop fuel s2 with
              | none =>
                rw [hstep] at h
                simp [hne, hloop2] at h
              | some p2 =>
                obtain ⟨s3, ots2⟩ := p2
                rw [hstep] at h
                simp only [hne, hloop2, Bool.false_eq_true, if_false,
                  Option.some.injEq, Prod.mk.injEq] at h
                obtain ⟨h1, h2⟩ := h
                subst h1
                subst h2
                obtain ⟨ts2, hap2, hs2, hots2⟩ := ih s2 _ ots2 hpo2 hloop2
                refine ⟨Token.Parens ts1 :: ts2, ?_, ?_, ?_⟩
                · simp [all_parens, hap1, hap2]
                · rw [hs0, hs2]
                  simp [render_tokens]
                · simp [hots2]
      · rw [tokenize_step_close] at h
        simp only [Option.some.injEq, Prod.mk.injEq] at h
        obtain ⟨rfl, rfl⟩ := h
        exact ⟨[], by simp [all_parens], by simp [render_tokens], rfl⟩

/-! ## Parenthesis counting and depth of rendered forests -/

theorem unclosed_from_render :
    ∀ (ts : List Token), ∀ (n : Nat) (r : List Char),
      unclosed_from n (render_tokens ts ++ r) = unclosed_from n r := by
  intro ts
  induction ts using render_tokens.induct with
  | case1 => intro n r; simp [render_tokens]
  | case2 cs ts ihcs ihts =>
    intro n r
    simp only [render_tokens, List.cons_append, List.append_assoc]
    rw [unclosed_from]
    rw [ihcs (n + 1) (')' :: (render_tokens ts ++ r))]
    rw [unclosed_from]
    rw [Nat.add_sub_cancel]
    exact ihts n r
  | case3 head ts hnp ihts =>
    intro n r
    cases head with
    | Parens cs => exact absurd rfl (hnp cs)
    | Keyword v => simp only [render_tokens]; exact ihts n r
    | Identifier v => simp only [render_tokens]; exact ihts n r
    | Literal v => simp only [render_tokens]; exact ihts n r
    | Comma => simp only [render_tokens]; exact ihts n r

theorem unclosed_opens_render (ts : List Token) :
    unclosed_opens (render_tokens ts) = 0 := by
  have h := unclosed_from_render ts 0 []
  rw [List.append_nil] at h
  simpa [unclosed_opens, unclosed_from] using h

theorem max_depth_from_render :
    ∀ (ts : List Token), ∀ (r : List Char) (d m : Nat), d ≤ m →
      max_depth_from (render_tokens ts ++ r) d m =
        max_depth_from r d (max m (d + depth_tokens ts)) := by
  intro ts
  induction ts using render_tokens.induct with
  | case1 =>
    intro r d m hdm
    simp only [render_tokens, List.nil_append, depth_tokens]
    rw [show max m (d + 0) = m by omega]
  | case2 cs ts ihcs ihts =>
    intro r d m hdm
    simp only [render_tokens, depth_tokens, List.cons_append, List.append_assoc]
    rw [max_depth_from]
    rw [ihcs (')' :: (render_tokens ts ++ r)) (d + 1) (max m (d + 1)) (by omega)]
    rw [max_depth_from]
    rw [Nat.add_sub_cancel]
    rw [ihts r d (max (max m (d + 1)) (d + 1 + depth_tokens cs)) (by omega)]
    congr 1
    omega
  | case3 head ts hnp ihts =>
    intro r d m hdm
    cases head with
    | Parens cs => exact absurd rfl (hnp cs)
    | Keyword v => simp only [render_tokens, depth_tokens]; exact ihts r d m hdm
    | Identifier v => simp only [render_tokens, depth_tokens]; exact ihts r d m hdm
    | Literal v => simp only [render_tokens, depth_tokens]; exact ihts r d m hdm
    | Comma => simp only [render_tokens, depth_tokens]; exact ihts r d m hdm

theorem str_depth_render (ts : List Token) :
    str_depth (render_tokens ts) = depth_tokens ts := by
  have h := max_depth_from_render ts [] 0 0 (Nat.le_refl 0)
  rw [List.append_nil] at h
  rw [str_depth, h]
  simp [max_depth_from]

/-- Claim C3: for every string consisting only of properly nested
parentheses (exactly the renderings of the `all_parens` token forests),
`tokenize` succeeds and yields the `Parens` token tree whose nesting depth
equals the parenthesis nesting depth of the input (in particular
`tokenize "(())" = [Parens [Parens []]]`); and for every parenthesis-only
string with an unmatched opening parenthesis (positive `unclosed_opens`),
such as `"()("`, `tokenize` fails with an error. -/
theorem spec_c3 :
    (∀ ts : List Token, all_parens ts = true →
        lexer.tokenizeL (render_tokens ts) = some ts ∧
        str_depth (render_tokens ts) = depth_tokens ts) ∧
    (∀ s : List Char, paren_only s = true → 0 < unclosed_opens s →
        lexer.tokenizeL s = none) ∧
    tokenize "(())" = some [Token.Parens [Token.Parens []]] ∧
    tokenize "()(" = none := by
  refine ⟨?_, ?_, rfl, rfl⟩
  · intro ts h
    exact ⟨tokenizeL_render h, str_depth_render ts⟩
  · intro s hpo hunc
    cases hout : lexer.tokenizeL s with
    | none => rfl
    | some out =>
      exfalso
      have hint := tokenizeL_some hout
      obtain ⟨ots, hloop, hres⟩ := tokenize_internal_some hint
      obtain ⟨ts, hap, hs, hots⟩ := tokenize_loop_sound _ s [] ots hpo hloop
      rw [List.append_nil] at hs
      subst hs
      have h0 := unclosed_opens_render ts
      omega

theorem spec_c3_witness :
    (lexer.tokenizeL (render_tokens [Token.Parens [Token.Parens []]]) =
        some [Token.Parens [Token.Parens []]] ∧
      str_depth (render_tokens [Token.Parens [Token.Parens []]]) =
        depth_tokens [Token.Parens [Token.Parens []]]) ∧
    lexer.tokenizeL ['(', '('] = none :=
  ⟨spec_c3.1 [Token.Parens [Token.Parens []]] (by simp [all_parens]),
   spec_c3.2.1 ['(', '('] (by simp [paren_only])
     (by simp [unclosed_opens, unclosed_from])⟩

theorem tokenize_step_cr
    (recur : List Char → Option (List Char × List (Option Token)))
    (r : List Char) : lexer.tokenize_step recur ('\r' :: r) = none := rfl

/-- Claim C10: the whitespace production accepts only space, newline and
tab; a carriage-return character outside a literal and outside a comment
body matches no production (the tokenizer step fails on any input starting
with CR), so tokenization of any input whose scan reaches such a CR stops
there and `tokenize` reports an error, as on `"a\r\nb"`. -/
theorem spec_c10 :
    (∀ c : Char, lexer.is_whitespace_char c = true ↔
        (c = ' ' ∨ c = '\n' ∨ c = '\t')) ∧
    lexer.is_whitespace_char '\r' = false ∧
    (∀ (recur : List Char → Option (List Char × List (Option Token)))
        (r : List Char), lexer.tokenize_step recur ('\r' :: r) = none) ∧
    (∀ r : List Char, lexer.tokenizeL ('\r' :: r) = none) ∧
    tokenize "a\r\nb" = none := by
  refine ⟨?_, rfl, fun recur r => tokenize_step_cr recur r, ?_, rfl⟩
  · intro c
    simp only [lexer.is_whitespace_char, Bool.or_eq_true, beq_iff_eq]
    tauto
  · intro r
    have hloop : lexer.tokenize_loop (r.length + 1 + 1) ('\r' :: r) =
        some ('\r' :: r, []) := by
      simp only [lexer.tokenize_loop, tokenize_step_cr]
    have hres : lexer.resolve_keywords (lexer.flatten_tokens []) =
        some ([], []) := rfl
    simp only [lexer.tokenizeL, lexer.tokenize_internal, List.length_cons,
      hloop, hres]

/-! ## Every keyword token the tokenizer produces is canonical -/

theorem good_list_cons {t : Token} {ts : List Token} :
    good_list (t :: ts) = true ↔ good_list [t] = true ∧ good_list ts = true := by
  cases t <;> simp [good_list]

theorem good_list_append {a b : List Token} :
    good_list (a ++ b) = true ↔ good_list a = true ∧ good_list b = true := by
  induction a with
  | nil => simp [good_list]
  | cons t ts ih =>
    rw [List.cons_append]
    constructor
    · intro h
      obtain ⟨h1, h2⟩ := good_list_cons.mp h
      exact ⟨good_list_cons.mpr ⟨h1, (ih.mp h2).1⟩, (ih.mp h2).2⟩
    · intro h
      obtain ⟨h1, h2⟩ := h
      obtain ⟨h3, h4⟩ := good_list_cons.mp h1
      exact good_list_cons.mpr ⟨h3, ih.mpr ⟨h4, h2⟩⟩

theorem good_list_suffix {a b : List Token} (hs : a <:+ b)
    (h : good_list b = true) : good_list a = true := by
  obtain ⟨pre, rfl⟩ := hs
  exact (good_list_append.mp h).2

theorem good_keyword_canon {k : String} (h : k ∈ keyword_canon) :
    good_list [Token.Keyword k] = true := by
  simp [good_list]
  exact h

theorem resolve_step_good {s s1 : List Token} {t : Token}
    (hg : good_list s = true) (h : lexer.resolve_step s = some (s1, t)) :
    good_list [t] = true ∧ good_list s1 = true := by
  obtain ⟨-, hsuf, hshape⟩ := resolve_step_some h
  refine ⟨?_, good_list_suffix hsuf hg⟩
  rcases hshape with hmem | rfl
  · simp only [List.mem_cons, List.mem_singleton] at hmem
    rcases hmem with rfl | rfl | rfl | rfl | rfl | hfalse
    · exact good_keyword_canon (by simp [keyword_canon])
    · exact good_keyword_canon (by simp [keyword_canon])
    · exact good_keyword_canon (by simp [keyword_canon])
    · exact good_keyword_canon (by simp [keyword_canon])
    · exact good_keyword_canon (by simp [keyword_canon])
    · exact absurd hfalse (by simp)
  · exact (good_list_cons.mp hg).1

theorem resolve_loop_good :
    ∀ (fuel : Nat) (ts rest out : List Token),
      good_list ts = true →
      lexer.resolve_loop fuel ts = some (rest, out) →
      good_list out = true := by
  intro fuel
  induction fuel with
  | zero => intro ts rest out hg h; simp [lexer.resolve_loop] at h
  | succ fuel ih =>
    intro ts rest out hg h
    simp only [lexer.resolve_loop] at h
    split at h
    · simp only [Option.some.injEq, Prod.mk.injEq] at h
      obtain ⟨rfl, rfl⟩ := h
      simp [good_list]
    · rename_i s1 t hstep
      split at h
      · exact absurd h (by simp)
      · split at h
        · rename_i s2 ts2 hloop
          simp only [Option.some.injEq, Prod.mk.injEq] at h
          obtain ⟨rfl, rfl⟩ := h
          obtain ⟨hgt, hgs1⟩ := resolve_step_good hg hstep
          exact good_list_cons.mpr ⟨hgt, ih s1 s2 ts2 hgs1 hloop⟩
        · exact absurd h (by simp)

theorem resolve_keywords_good {ts rest out : List Token}
    (hg : good_list ts = true)
    (h : lexer.resolve_keywords ts = some (rest, out)) :
    good_list out = true :=
  resolve_loop_good (ts.length + 1) ts rest out hg h

theorem flatten_tokens_good {ots : List (Option Token)}
    (h : ∀ t, some t ∈ ots → good_list [t] = true) :
    good_list (lexer.flatten_tokens ots) = true := by
  induction ots with
  | nil => simp [lexer.flatten_tokens, good_list]
  | cons ot rest ih =>
    cases ot with
    | none =>
      simp only [lexer.flatten_tokens]
      exact ih (fun t ht => h t (by simp [ht]))
    | some t =>
      simp only [lexer.flatten_tokens]
      exact good_list_cons.mpr
        ⟨h t (by simp), ih (fun u hu => h u (by simp [hu]))⟩

theorem tokenize_step_good {recur : List Char → Option (List Char × List (Option Token))}
    {s s1 : List Char} {ot : Option Token}
    (hrec : ∀ r r1 os, recur r = some (r1, os) →
      ∀ t, some t ∈ os → good_list [t] = true)
    (h : lexer.tokenize_step recur s = some (s1, ot)) :
    ∀ t, ot = some t → good_list [t] = true := by
  simp only [lexer.tokenize_step] at h
  split at h
  · rename_i r hlc
    obtain rfl : r = (s1, ot) := by injection h
    intro t ht
    rw [(line_comment_some hlc).2] at ht
    exact absurd ht (by simp)
  · split at h
    · rename_i r hbc
      obtain rfl : r = (s1, ot) := by injection h
      intro t ht
      rw [(block_comment_some hbc).2] at ht
      exact absurd ht (by simp)
    · split at h
      · rename_i rest hlc2 hbc2
        split at h
        · rename_i r1 os hrecur
          split at h
          · rename_i inner hres
            split at h
            · rename_i s2
              simp only [Option.some.injEq, Prod.mk.injEq] at h
              obtain ⟨rfl, rfl⟩ := h
              intro t ht
              obtain rfl : Token.Parens inner = t := by injection ht
              have hflat : good_list (lexer.flatten_tokens os) = true :=
                flatten_tokens_good (hrec rest (')' :: s2) os hrecur)
              have hginner : good_list inner = true :=
                resolve_keywords_good hflat hres
              simp [good_list, hginner]
            · intro t ht
              obtain ⟨-, hsh⟩ := tokenize_tail_step_some h
              rcases hsh with hn | ⟨v, hv⟩ | ⟨v, hv⟩ | hcm
              · rw [hn] at ht; exact absurd ht (by simp)
              · rw [hv] at ht
                obtain rfl : Token.Identifier v = t := by injection ht
                simp [good_list]
              · rw [hv] at ht
                obtain rfl : Token.Literal v = t := by injection ht
                simp [good_list]
              · rw [hcm] at ht
                obtain rfl : Token.Comma = t := by injection ht
                simp [good_list]
          · exact absurd h (by simp)
        · intro t ht
          obtain ⟨-, hsh⟩ := tokenize_tail_step_some h
          rcases hsh with hn | ⟨v, hv⟩ | ⟨v, hv⟩ | hcm
          · rw [hn] at ht; exact absurd ht (by simp)
          · rw [hv] at ht
            obtain rfl : Token.Identifier v = t := by injection ht
            simp [good_list]
          · rw [hv] at ht
            obtain rfl : Token.Literal v = t := by injection ht
            simp [good_list]
          · rw [hcm] at ht
            obtain rfl : Token.Comma = t := by injection ht
            simp [good_list]
      · intro t ht
        obtain ⟨-, hsh⟩ := tokenize_tail_step_some h
        rcases hsh with hn | ⟨v, hv⟩ | ⟨v, hv⟩ | hcm
        · rw [hn] at ht; exact absurd ht (by simp)
        · rw [hv] at ht
          obtain rfl : Token.Identifier v = t := by injection ht
          simp [good_list]
        · rw [hv] at ht
          obtain rfl : Token.Literal v = t := by injection ht
          simp [good_list]
        · rw [hcm] at ht
          obtain rfl : Token.Comma = t := by injection ht
          simp [good_list]

theorem tokenize_loop_good :
    ∀ (fuel : Nat) (s rest : List Char) (ots : List (Option Token)),
      lexer.tokenize_loop fuel s = some (rest, ots) →
      ∀ t, some t ∈ ots → good_list [t] = true := by
  intro fuel
  induction fuel with
  | zero => intro s rest ots h; simp [lexer.tokenize_loop] at h
  | succ fuel ih =>
    intro s rest ots h
    simp only [lexer.tokenize_loop] at h
    split at h
    · simp only [Option.some.injEq, Prod.mk.injEq] at h
      obtain ⟨rfl, rfl⟩ := h
      intro t ht
      exact absurd ht (by simp)
    · rename_i s1 t0 hstep
      split at h
      · exact absurd h (by simp)
      · split at h
        · rename_i s2 ts2 hloop
          simp only [Option.some.injEq, Prod.mk.injEq] at h
          obtain ⟨rfl, rfl⟩ := h
          intro t ht
          rcases List.mem_cons.mp ht with heq | hm
          · exact tokenize_step_good (fun a b c hc => ih a b c hc) hstep t heq.symm
          · exact ih s1 s2 ts2 hloop t hm
        · exact absurd h (by simp)

/-- Claim C7: keyword resolution is case-insensitive and normalizes to
uppercase at token creation: `"select"`, `"SELECT"` and `"SeLeCt"` each
tokenize to the same single `Keyword "SELECT"` token, and every `Keyword`
token produced by `tokenize` (also inside `Parens` children) carries a
canonical uppercase phrase of the keyword table. -/
theorem spec_c7 :
    tokenize "select" = some [Token.Keyword "SELECT"] ∧
    tokenize "SELECT" = some [Token.Keyword "SELECT"] ∧
    tokenize "SeLeCt" = some [Token.Keyword "SELECT"] ∧
    ∀ (s : String) (ts : List Token), tokenize s = some ts →
      good_list ts = true := by
  refine ⟨rfl, rfl, rfl, ?_⟩
  intro s ts h
  have hint := tokenizeL_some h
  obtain ⟨ots, hloop, hres⟩ := tokenize_internal_some hint
  have hflat : good_list (lexer.flatten_tokens ots) = true :=
    flatten_tokens_good (tokenize_loop_good (s.data.length + 1) s.data [] ots hloop)
  exact resolve_keywords_good hflat hres

theorem spec_c7_witness : good_list [Token.Keyword "SELECT"] = true :=
  spec_c7.2.2.2 "select" [Token.Keyword "SELECT"] rfl

/-- fuel sufficiency for the tokenizer loop: with fuel exceeding the input
length the loop never runs out (each successful step consumes at least one
character), so the fuel encoding is faithful to nom's unbounded `many0`. -/
theorem tokenize_loop_total :
    ∀ (fuel : Nat) (s : List Char), s.length < fuel →
      lexer.tokenize_loop fuel s ≠ none := by
  intro fuel
  induction fuel with
  | zero => intro s h; omega
  | succ fuel ih =>
    intro s hlen hnone
    simp only [lexer.tokenize_loop] at hnone
    cases hstep : lexer.tokenize_step (lexer.tokenize_loop fuel) s with
    | none => rw [hstep] at hnone; exact absurd hnone (by simp)
    | some p =>
      obtain ⟨s1, t⟩ := p
      have hlt : s1.length < s.length :=
        tokenize_step_some (fun a b c hc => tokenize_loop_length fuel hc) hstep
      have hne : (s1.length == s.length) = false := by
        simp only [beq_eq_false_iff_ne]
        omega
      cases hloop2 : lexer.tokenize_loop fuel s1 with
      | none => exact ih s1 (by omega) hloop2
      | some p2 =>
        obtain ⟨s2, ts⟩ := p2
        rw [hstep] at hnone
        simp [hne, hloop2] at hnone
